import Mathlib

/-!
# Verification of `storitaimu.py`

A shallow embedding of the audio-analysis pipeline in `storitaimu.py`.
Strings are modelled as `List Char`; the ASCII fragment of Python's string
and regex semantics is embedded (`str.lower`, `\b`-bounded regex matching,
`str.split`, `os.path.splitext`), and the effectful pipeline
(`analyze_audio` plus the `__main__` block) is modelled as a function from
an oracle record (directory listing, external-service results, write
outcomes) to the run's final artifact state.
-/

namespace Storitaimu


/-! ### The embedded program -/

/-- Word character in the sense of the regex class `\w` (ASCII fragment):
letters, digits or underscore.  The six filler patterns in
`analyze_filler_words` are of the form `\b...\b`, and `\b` is the boundary
between a `\w` character and a non-`\w` character (or the string edge). -/
def wc (c : Char) : Bool := c.isAlphanum || c == '_'

/-- Character of `s` at index `i`, with the non-word character `' '` as
out-of-range default (used only beyond the string, where the regex sees
a virtual non-word position). -/
def charAt (s : List Char) (i : Nat) : Char := s.getD i ' '

/-- The ASCII uppercase-to-lowercase table. -/
def upperLower : List (Char × Char) :=
  [('A', 'a'), ('B', 'b'), ('C', 'c'), ('D', 'd'), ('E', 'e'), ('F', 'f'),
   ('G', 'g'), ('H', 'h'), ('I', 'i'), ('J', 'j'), ('K', 'k'), ('L', 'l'),
   ('M', 'm'), ('N', 'n'), ('O', 'o'), ('P', 'p'), ('Q', 'q'), ('R', 'r'),
   ('S', 's'), ('T', 't'), ('U', 'u'), ('V', 'v'), ('W', 'w'), ('X', 'x'),
   ('Y', 'y'), ('Z', 'z')]

/-- Python `str.lower` on one character (ASCII case mapping; other
characters are left unchanged). -/
def pyLowerChar (c : Char) : Char := (upperLower.lookup c).getD c

/-- Python `str.lower` on a whole string. -/
def pyLower (s : List Char) : List Char := s.map pyLowerChar

/-- `matchAt s pat i` holds when the regex `\b pat \b` matches the text of
`s` starting at index `i`.  All six filler patterns begin and end with a
word character, so the leading `\b` amounts to "`i` is `0` or the previous
character is not a word character", and the trailing `\b` amounts to "the
character after the match, if any, is not a word character". -/
def matchAt (s pat : List Char) (i : Nat) : Bool :=
  decide (i + pat.length ≤ s.length) &&
  ((List.range pat.length).all fun j => charAt s (i + j) == charAt pat j) &&
  (decide (i = 0) || !(wc (charAt s (i - 1)))) &&
  !(wc (charAt s (i + pat.length)))

/-- Fuelled scan implementing `re.findall`'s left-to-right search: at each
position try to match; on a match, continue after its end, otherwise
advance one character.  Fuel `s.length + 1` suffices for nonempty
patterns. -/
def scanAux (s pat : List Char) : Nat → Nat → Nat
  | 0, _ => 0
  | fuel + 1, i =>
    if s.length ≤ i then 0
    else if matchAt s pat i then 1 + scanAux s pat fuel (i + pat.length)
    else scanAux s pat fuel (i + 1)

/-- `len(re.findall(r'\b pat \b', s))`: the number of non-overlapping
matches found by the left-to-right scan. -/
def scanCount (s pat : List Char) : Nat := scanAux s pat (s.length + 1) 0

/-- The fixed filler vocabulary of `analyze_filler_words` (the dict keys;
each maps to the pattern `\b key \b`). -/
def fillerVocab : List (List Char) :=
  ["um".toList, "uh".toList, "like".toList,
   "you know".toList, "sort of".toList, "kind of".toList]

/-- `analyze_filler_words(transcript)`: count each vocabulary pattern in
`transcript.lower()` and keep, in vocabulary (= dict insertion) order,
only the terms with a positive count. -/
def analyze_filler_words (transcript : List Char) : List (List Char × Nat) :=
  (fillerVocab.map fun t => (t, scanCount (pyLower transcript) t)).filter
    fun p => decide (0 < p.2)

/-- `sum(filler_counts.values())`, as computed for `total_filler_words`. -/
def fillerTotal (counts : List (List Char × Nat)) : Nat :=
  (counts.map Prod.snd).sum

/-- Count reported for a term by a filler-word report: the stored value,
or `0` when the term is not a key of the report. -/
def lookupCount (counts : List (List Char × Nat)) (k : List Char) : Nat :=
  (counts.lookup k).getD 0

/-- The supported audio extensions of `find_audio_file` (in source
order). -/
def audio_extensions : List (List Char) :=
  [".mp3".toList, ".m4a".toList, ".wav".toList, ".aac".toList, ".mp4".toList]

/-- `file.lower().endswith(audio_extensions)`. -/
def isAudioName (f : List Char) : Bool :=
  audio_extensions.any fun ext => ext.isSuffixOf (pyLower f)

/-- `find_audio_file()`: the first entry of the directory listing whose
lowercased name ends with a supported extension, if any. -/
def find_audio_file (files : List (List Char)) : Option (List Char) :=
  files.find? isAudioName

/-- The single-token patterns. -/
def singleToks : List (List Char) := ["um".toList, "uh".toList, "like".toList]

/-- The two-token patterns, as (first token, second token). -/
def twoTokPairs : List (List Char × List Char) :=
  [("you".toList, "know".toList), ("sort".toList, "of".toList),
   ("kind".toList, "of".toList)]

/-- Number of positions at which the pattern matches. -/
def countPos (s pat : List Char) : Nat :=
  ((Finset.range s.length).filter fun i => matchAt s pat i = true).card

/-- Number of match positions at or after `i`. -/
def countFrom (s pat : List Char) (i : Nat) : Nat :=
  ((Finset.range s.length).filter fun j => i ≤ j ∧ matchAt s pat j = true).card

/-- Python (ASCII) whitespace, as recognised by `str.split()` with no
arguments. -/
def pyIsSpace (c : Char) : Bool :=
  c == ' ' || c == '\t' || c == '\n' || c == '\r' || c == '\x0b' || c == '\x0c'

/-- Worker for `str.split()`: accumulate the current token (reversed) and
emit it when whitespace or the end of the string is reached. -/
def pySplitAux : List Char → List Char → List (List Char)
  | [], acc => if acc.isEmpty then [] else [acc.reverse]
  | c :: rest, acc =>
    if pyIsSpace c then
      if acc.isEmpty then pySplitAux rest [] else acc.reverse :: pySplitAux rest []
    else pySplitAux rest (c :: acc)

/-- `transcript.split()`: maximal whitespace-separated tokens, with no
empty tokens. -/
def pySplit (s : List Char) : List (List Char) := pySplitAux s []

/-- Number of tokens yet to be completed, entering the text with `w`
recording whether a token is already in progress. -/
def countTok : List Char → Bool → Nat
  | [], w => if w then 1 else 0
  | c :: rest, w =>
    if pyIsSpace c then (if w then 1 else 0) + countTok rest false
    else countTok rest true

/-- Positional count of token starts, entering with in-progress state
`w`: positions holding a non-whitespace character that are either at the
start (with no token in progress) or preceded by whitespace. -/
def tokenStartsFrom (s : List Char) (w : Bool) : Nat :=
  (List.range s.length).countP fun i =>
    !pyIsSpace (charAt s i) &&
      (if i = 0 then !w else pyIsSpace (charAt s (i - 1)))

/-- The number of maximal whitespace-separated tokens of `s`, counted by
their start positions.  This is the independent, positional reading of
"number of maximal whitespace-separated tokens". -/
def tokenStarts (s : List Char) : Nat := tokenStartsFrom s false

/-- Index of the last occurrence of `c` in `s`, if any. -/
def lastIndexOf (s : List Char) (c : Char) : Option Nat :=
  (s.reverse.findIdx? fun d => d == c).map fun k => s.length - 1 - k

/-- `os.path.splitext(path)[0]` (posixpath): cut at the last dot, provided
it comes after the last separator and the leading part of the base name is
not entirely dots. -/
def splitextRoot (path : List Char) : List Char :=
  match lastIndexOf path '.' with
  | none => path
  | some d =>
    let sepBound : Nat :=
      match lastIndexOf path '/' with
      | none => 0
      | some k => k + 1
    if sepBound ≤ d ∧ ∃ i < d, sepBound ≤ i ∧ charAt path i ≠ '.' then
      path.take d
    else path

/-- `os.path.splitext(path)[1]`: the discarded extension. -/
def splitextExt (path : List Char) : List Char :=
  path.drop (splitextRoot path).length

/-- `str(uuid.uuid4())[:8]`. -/
def analysisId (uuidStr : List Char) : List Char := uuidStr.take 8

/-- `folder_name = f"(analysis_id)-(splitext(audio_file)[0])"`. -/
def folderName (uuidStr audio : List Char) : List Char :=
  analysisId uuidStr ++ '-' :: splitextRoot audio

/-- `folder_path = os.path.join('data', folder_name)` (the second
component is a plain relative name, so the join is concatenation with one
separator). -/
def folderPath (uuidStr audio : List Char) : List Char :=
  "data".toList ++ '/' :: folderName uuidStr audio

/-- `new_audio_path = os.path.join(folder_path, audio_file)`. -/
def newAudioPath (uuidStr audio : List Char) : List Char :=
  folderPath uuidStr audio ++ '/' :: audio

/-- `shutil.move(src, dst)` on a filesystem modelled as a partial map
from paths to byte contents: the destination now holds the source's
bytes, and the source is gone. -/
def moveFile (fs : List Char → Option (List Nat)) (src dst : List Char) :
    List Char → Option (List Nat) :=
  fun q => if q = dst then fs src else if q = src then none else fs q

/-- The last `n` characters of `f`. -/
def lastN (f : List Char) (n : Nat) : List Char := f.drop (f.length - n)

/-- The spec's notion for the File Locator: the file name ends,
case-insensitively, with the extension.  Stated independently of the
code's `file.lower().endswith(...)` shape: the name is long enough and
its last characters agree with the extension up to case. -/
def spec_isSupportedAudio (f : List Char) : Bool :=
  audio_extensions.any fun ext =>
    decide (ext.length ≤ f.length) &&
    decide (pyLower (lastN f ext.length) = pyLower ext)

/-- JSON values, as far as the validation needs to distinguish them. -/
inductive JVal where
  | jstr : List Char → JVal
  | jarr : List JVal → JVal
  | jnum : Int → JVal
  | jbool : Bool → JVal
  | jnull : JVal

/-- The `story_strength` literal type. -/
inductive StoryStrength where
  | weak | average | good | strong | excellent
  deriving DecidableEq

/-- The `story_length` literal type. -/
inductive StoryLength where
  | tooShort | justRight | tooLong
  deriving DecidableEq

/-- The `ContentReview` pydantic model: required `summary : str`,
`story_strength` and `story_length` literals, `suggestions : List[str]`. -/
structure ContentReview where
  summary : List Char
  story_strength : StoryStrength
  story_length : StoryLength
  suggestions : List (List Char)
  deriving DecidableEq

/-- Validation of the `story_strength` field: a string out of the five
declared literals; anything else is rejected. -/
def parseStrength : JVal → Option StoryStrength
  | .jstr v =>
    if v = "weak".toList then some .weak
    else if v = "average".toList then some .average
    else if v = "good".toList then some .good
    else if v = "strong".toList then some .strong
    else if v = "excellent".toList then some .excellent
    else none
  | _ => none

/-- Validation of the `story_length` field. -/
def parseLength : JVal → Option StoryLength
  | .jstr v =>
    if v = "too short".toList then some .tooShort
    else if v = "just right".toList then some .justRight
    else if v = "too long".toList then some .tooLong
    else none
  | _ => none

/-- Validation of the `suggestions` elements: every element must be a
string. -/
def parseStrList : List JVal → Option (List (List Char))
  | [] => some []
  | .jstr v :: rest => (parseStrList rest).map (v :: ·)
  | _ => none

/-- Building the `ContentReview` from the parsed completion response:
`review_data[...]` raises `KeyError` on a missing key, and the pydantic
constructor raises a validation error on a wrong type or an undeclared
enum value.  All failures abort the run with an error. -/
def parseReview (obj : List (String × JVal)) : Except Unit ContentReview :=
  match obj.lookup "summary", obj.lookup "story_strength",
      obj.lookup "story_length", obj.lookup "suggestions" with
  | some (.jstr sm), some vst, some vln, some (.jarr items) =>
    match parseStrength vst, parseLength vln, parseStrList items with
    | some st, some ln, some sugs => .ok ⟨sm, st, ln, sugs⟩
    | _, _, _ => .error ()
  | _, _, _, _ => .error ()

/-- State of an artifact file in the result folder. -/
inductive FileState where
  | absent | halfWritten | complete
  deriving DecidableEq

/-- Outcome of one `open(...); write(...)`: success, failure to open (no
file appears), or failure mid-write (an incomplete file is left). -/
inductive WriteOutcome where
  | ok | failOpen | failMid
  deriving DecidableEq

/-- Everything the run reads from outside: the directory listing, the
random uuid string, the outcomes of the effectful steps, and the two
external collaborators (the Whisper transcription and the completion call
combined with `json.loads`). -/
structure Oracles where
  files : List (List Char)
  uuidStr : List Char
  mkdirOk : Bool
  moveOk : Bool
  transcribeResult : Except Unit (List Char)
  completionResult : Except Unit (List (String × JVal))
  transcriptWrite : WriteOutcome
  jsonWrite : WriteOutcome

inductive RunOutcome where
  | noInput | aborted | completed
  deriving DecidableEq

/-- Persisted state when the run ends. -/
structure RunState where
  outcome : RunOutcome
  resultFolderCreated : Bool
  audioMoved : Bool
  transcriptFile : FileState
  jsonFile : FileState
  deriving DecidableEq

def writeResult : WriteOutcome → FileState
  | .ok => .complete
  | .failOpen => .absent
  | .failMid => .halfWritten

/-- `analyze_audio()`: locate, make the folder, move the audio,
transcribe, analyse, review, then write `transcript.txt` and
`analysis.json` in that order; any failure aborts the rest. -/
def runPipeline (o : Oracles) : RunState :=
  match find_audio_file o.files with
  | none => ⟨.noInput, false, false, .absent, .absent⟩
  | some _audio =>
    if !o.mkdirOk then ⟨.aborted, false, false, .absent, .absent⟩
    else if !o.moveOk then ⟨.aborted, true, false, .absent, .absent⟩
    else
      match o.transcribeResult with
      | .error _ => ⟨.aborted, true, true, .absent, .absent⟩
      | .ok _transcript =>
        match o.completionResult with
        | .error _ => ⟨.aborted, true, true, .absent, .absent⟩
        | .ok obj =>
          match parseReview obj with
          | .error _ => ⟨.aborted, true, true, .absent, .absent⟩
          | .ok _review =>
            match o.transcriptWrite with
            | .ok =>
              match o.jsonWrite with
              | .ok => ⟨.completed, true, true, .complete, .complete⟩
              | w => ⟨.aborted, true, true, .complete, writeResult w⟩
            | w => ⟨.aborted, true, true, writeResult w, .absent⟩

/-- The `__main__` block: `os.makedirs('data', exist_ok=True)` (the
`data/` root exists afterwards, created if it was missing), then
`asyncio.run(analyze_audio())`. -/
def runMain (_dataDirExists : Bool) (o : Oracles) : Bool × RunState :=
  (true, runPipeline o)

/-- The metrics object built in `analyze_audio` (lines 114-127). -/
structure TranscriptMetrics where
  word_count : Nat
  filler_words : List (List Char × Nat)
  total_filler_words : Nat

def mkMetrics (transcript : List Char) : TranscriptMetrics :=
  { word_count := (pySplit transcript).length
    filler_words := analyze_filler_words transcript
    total_filler_words := fillerTotal (analyze_filler_words transcript) }

/-- Any filesystem change of a no-input invocation other than a directory
existence check: the `data/` root coming into existence, a result folder,
a moved audio file, or an artifact file. -/
def mutatedBeyondChecks (dataDirBefore : Bool) (res : Bool × RunState) : Prop :=
  res.1 ≠ dataDirBefore ∨ res.2.resultFolderCreated = true ∨
  res.2.audioMoved = true ∨ res.2.transcriptFile ≠ FileState.absent ∨
  res.2.jsonFile ≠ FileState.absent

/-- A schema-valid completion response. -/
def goodReviewObj : List (String × JVal) :=
  [("summary", .jstr "fine".toList), ("story_strength", .jstr "good".toList),
   ("story_length", .jstr "just right".toList),
   ("suggestions", .jarr [.jstr "slow down".toList])]

/-- A schema-valid completion response whose suggestions list is empty. -/
def emptySuggObj : List (String × JVal) :=
  [("summary", .jstr "fine".toList), ("story_strength", .jstr "good".toList),
   ("story_length", .jstr "just right".toList), ("suggestions", .jarr [])]

/-- A completion response with the required `summary` field missing. -/
def noSummaryObj : List (String × JVal) :=
  [("story_strength", .jstr "good".toList),
   ("story_length", .jstr "just right".toList), ("suggestions", .jarr [])]

/-- A run in which every stage succeeds except the final save of
`analysis.json`, whose `open` fails. -/
def o6 : Oracles :=
  { files := ["talk.mp3".toList]
    uuidStr := "123e4567-e89b-12d3-a456-426614174000".toList
    mkdirOk := true
    moveOk := true
    transcribeResult := .ok "Um, so basically this is my story.".toList
    completionResult := .ok goodReviewObj
    transcriptWrite := .ok
    jsonWrite := .failOpen }

/-- The same run with the final save succeeding. -/
def o6ok : Oracles := { o6 with jsonWrite := .ok }

/-- A run whose completion response is missing `summary`. -/
def o7 : Oracles := { o6 with completionResult := .ok noSummaryObj, jsonWrite := .ok }

/-- A run whose completion response has an empty suggestions list. -/
def o8 : Oracles := { o6 with completionResult := .ok emptySuggObj, jsonWrite := .ok }

/-- A run over a directory with no supported audio file. -/
def o9 : Oracles := { o6 with files := ["notes.txt".toList] }

/-! ### The verification -/

/-! ## Characterisation of the matcher -/

theorem matchAt_iff {s pat : List Char} {i : Nat} :
    matchAt s pat i = true ↔
      i + pat.length ≤ s.length ∧
      (∀ j, j < pat.length → charAt s (i + j) = charAt pat j) ∧
      (i = 0 ∨ wc (charAt s (i - 1)) = false) ∧
      wc (charAt s (i + pat.length)) = false := by
  simp [matchAt, List.all_eq_true, List.mem_range, Bool.and_eq_true, Bool.or_eq_true,
    Bool.not_eq_true', decide_eq_true_iff]
  tauto

theorem match_le_length {s pat : List Char} {i : Nat} (h : matchAt s pat i = true) :
    i + pat.length ≤ s.length := (matchAt_iff.mp h).1

theorem match_char {s pat : List Char} {i : Nat} (h : matchAt s pat i = true)
    {j : Nat} (hj : j < pat.length) : charAt s (i + j) = charAt pat j :=
  (matchAt_iff.mp h).2.1 j hj

theorem match_no_wc_left {s pat : List Char} {i : Nat} (h : matchAt s pat i = true)
    (hi : i ≠ 0) : wc (charAt s (i - 1)) = false :=
  ((matchAt_iff.mp h).2.2.1).resolve_left hi

theorem match_no_wc_right {s pat : List Char} {i : Nat} (h : matchAt s pat i = true) :
    wc (charAt s (i + pat.length)) = false := (matchAt_iff.mp h).2.2.2

/-- A match absorbs on the right: a run of word characters starting inside
the match cannot reach past its end, because the character just after the
match is not a word character. -/
theorem match_absorb_right {s pat : List Char} {i j k : Nat}
    (h : matchAt s pat i = true) (_hij : i ≤ j) (hj : j < i + pat.length)
    (hword : ∀ m, j ≤ m → m ≤ k → wc (charAt s m) = true) :
    k < i + pat.length := by
  by_contra hk
  have h1 : wc (charAt s (i + pat.length)) = true :=
    hword (i + pat.length) (by omega) (by omega)
  have h2 := match_no_wc_right h
  simp [h1] at h2

/-- A match absorbs on the left: a run of word characters ending inside
the match cannot start before it, because the character just before the
match (if any) is not a word character. -/
theorem match_absorb_left {s pat : List Char} {i j k : Nat}
    (h : matchAt s pat i = true) (hij : i ≤ j) (_hj : j < i + pat.length)
    (hword : ∀ m, k ≤ m → m ≤ j → wc (charAt s m) = true) :
    i ≤ k := by
  by_contra hk
  have hi : i ≠ 0 := by omega
  have h1 : wc (charAt s (i - 1)) = true := hword (i - 1) (by omega) (by omega)
  have h2 := match_no_wc_left h hi
  simp [h1] at h2

/-! ## Index calculus for appended strings -/

theorem charAt_append_left {x y : List Char} {n : Nat} (h : n < x.length) :
    charAt (x ++ y) n = charAt x n := List.getD_append x y ' ' n h

theorem charAt_append_right {x y : List Char} {n : Nat} (h : x.length ≤ n) :
    charAt (x ++ y) n = charAt y (n - x.length) := List.getD_append_right x y ' ' n h

theorem charAt_of_mem_forall {x : List Char} {P : Char → Prop} (hx : ∀ c ∈ x, P c)
    {n : Nat} (hn : n < x.length) : P (charAt x n) := by
  have : charAt x n = x[n] := List.getD_eq_getElem x ' ' hn
  rw [this]
  exact hx _ (List.getElem_mem hn)

/-- The character of `p ++ a ++ t ++ b ++ s` at an arbitrary index, by
region. -/
theorem charAt_five (p a t b s : List Char) (n : Nat) :
    charAt (p ++ a ++ t ++ b ++ s) n =
      if n < p.length then charAt p n
      else if n < p.length + a.length then charAt a (n - p.length)
      else if n < p.length + a.length + t.length then
        charAt t (n - p.length - a.length)
      else if n < p.length + a.length + t.length + b.length then
        charAt b (n - p.length - a.length - t.length)
      else charAt s (n - p.length - a.length - t.length - b.length) := by
  have hassoc : p ++ a ++ t ++ b ++ s = p ++ (a ++ (t ++ (b ++ s))) := by
    simp [List.append_assoc]
  rw [hassoc]
  split
  · next h1 => exact charAt_append_left h1
  · next h1 =>
    rw [charAt_append_right (by omega)]
    split
    · next h2 => exact charAt_append_left (by omega)
    · next h2 =>
      rw [charAt_append_right (by omega)]
      split
      · next h3 => exact charAt_append_left (by omega)
      · next h3 =>
        rw [charAt_append_right (by omega)]
        split
        · next h4 => exact charAt_append_left (by omega)
        · next h4 => exact charAt_append_right (by omega)

/-- The character of `p ++ t ++ s` at an arbitrary index, by region. -/
theorem charAt_three (p t s : List Char) (n : Nat) :
    charAt (p ++ t ++ s) n =
      if n < p.length then charAt p n
      else if n < p.length + t.length then charAt t (n - p.length)
      else charAt s (n - p.length - t.length) := by
  have hassoc : p ++ t ++ s = p ++ (t ++ s) := by simp [List.append_assoc]
  rw [hassoc]
  split
  · next h1 => exact charAt_append_left h1
  · next h1 =>
    rw [charAt_append_right (by omega)]
    split
    · next h2 => exact charAt_append_left (by omega)
    · next h2 => exact charAt_append_right (by omega)

theorem charAt_cons_succ (c : Char) (l : List Char) (n : Nat) :
    charAt (c :: l) (n + 1) = charAt l n := rfl

/-! ## Combinatorics of the fixed vocabulary

Each of the six patterns is a single word-character token or two tokens
separated by one space.  The facts below are finite checks about these six
concrete strings; together they say that no token of one pattern can sit
strictly inside a word-character run built around (a token of) another
pattern. -/

theorem vocab_cases : ∀ t ∈ fillerVocab,
    t ∈ singleToks ∨ ∃ pr ∈ twoTokPairs, t = pr.1 ++ ' ' :: pr.2 := by decide

theorem singleToks_word : ∀ t ∈ singleToks,
    ∀ m, m < t.length → wc (charAt t m) = true := by decide

theorem pair_word : ∀ pr ∈ twoTokPairs,
    (∀ m, m < pr.1.length → wc (charAt pr.1 m) = true) ∧
    (∀ m, m < pr.2.length → wc (charAt pr.2 m) = true) ∧
    1 ≤ pr.1.length ∧ 1 ≤ pr.2.length := by decide

theorem vocab_edge : ∀ t ∈ fillerVocab,
    1 ≤ t.length ∧ wc (charAt t 0) = true ∧
    wc (charAt t (t.length - 1)) = true := by decide

/-- A space inside a pattern only occurs as the separator of a two-token
pattern. -/
theorem vocab_space : ∀ u ∈ fillerVocab, ∀ d, d < u.length →
    charAt u d = ' ' →
    ∃ pr ∈ twoTokPairs, u = pr.1 ++ ' ' :: pr.2 ∧ d = pr.1.length := by decide

/-- No pattern contains a single-token pattern extended by an adjacent
word character (on either side). -/
theorem no_extended_single : ∀ u ∈ fillerVocab, ∀ t ∈ singleToks,
    ∀ d, d < u.length + 1 → d + t.length ≤ u.length →
    (∀ m, m < t.length → charAt u (d + m) = charAt t m) →
    ¬((1 ≤ d ∧ wc (charAt u (d - 1)) = true) ∨
      (d + t.length < u.length ∧ wc (charAt u (d + t.length)) = true)) := by decide

/-- No pattern ends with the first token of a two-token pattern. -/
theorem no_suffix_tok1 : ∀ u ∈ fillerVocab, ∀ pr ∈ twoTokPairs,
    ¬(pr.1.length ≤ u.length ∧
      ∀ m, m < pr.1.length →
        charAt u (u.length - pr.1.length + m) = charAt pr.1 m) := by decide

/-- No pattern starts with the second token of a two-token pattern. -/
theorem no_prefix_tok2 : ∀ u ∈ fillerVocab, ∀ pr ∈ twoTokPairs,
    ¬(pr.2.length ≤ u.length ∧
      ∀ m, m < pr.2.length → charAt u m = charAt pr.2 m) := by decide

/-- Among the first tokens of two-token patterns, a suffix relation forces
equality. -/
theorem tok1_suffix_eq : ∀ pu ∈ twoTokPairs, ∀ pt ∈ twoTokPairs,
    pt.1.length ≤ pu.1.length →
    (∀ m, m < pt.1.length →
      charAt pu.1 (pu.1.length - pt.1.length + m) = charAt pt.1 m) →
    pu.1 = pt.1 := by decide

/-- Among the second tokens of two-token patterns, a one-sided matching of
the shorter against the start of the longer forces equality. -/
theorem tok2_prefix_eq : ∀ pu ∈ twoTokPairs, ∀ pt ∈ twoTokPairs,
    pt.2.length ≤ pu.2.length →
    (∀ m, m < pt.2.length → charAt pu.2 m = charAt pt.2 m) →
    pu.2 = pt.2 := by decide

/-- No pattern overlaps a shifted copy of itself at a word-boundary-valid
offset. -/
theorem no_self_overlap : ∀ pat ∈ fillerVocab, ∀ d, d < pat.length → 1 ≤ d →
    ¬(wc (charAt pat (d - 1)) = false ∧
      ∀ m, m < pat.length - d → charAt pat (d + m) = charAt pat m) := by decide

theorem vocab_nodup : fillerVocab.Nodup := by decide

theorem vocab_lower : ∀ t ∈ fillerVocab, pyLower t = t := by decide

/-! ## The findall scan counts match positions

Two distinct matches of the same pattern can never overlap
(`match_no_overlap`), so the left-to-right non-overlapping scan of
`re.findall` counts exactly the set of positions at which the pattern
matches. -/

theorem match_no_overlap {pat : List Char} (hpat : pat ∈ fillerVocab) {s : List Char}
    {i j : Nat} (hi : matchAt s pat i = true) (hj : matchAt s pat j = true)
    (hij : i < j) : i + pat.length ≤ j := by
  by_contra hlt
  push_neg at hlt
  have hd1 : 1 ≤ j - i := by omega
  have hdlt : j - i < pat.length := by omega
  have hwcf : wc (charAt pat (j - i - 1)) = false := by
    have hj0 : j ≠ 0 := by omega
    have hw := match_no_wc_left hj hj0
    have hc : charAt s (j - 1) = charAt pat (j - i - 1) := by
      have he : j - 1 = i + (j - i - 1) := by omega
      rw [he]
      exact match_char hi (by omega)
    rwa [hc] at hw
  have hshift : ∀ m, m < pat.length - (j - i) →
      charAt pat ((j - i) + m) = charAt pat m := by
    intro m hm
    have h1 : charAt s (i + ((j - i) + m)) = charAt pat ((j - i) + m) :=
      match_char hi (by omega)
    have h2 : charAt s (j + m) = charAt pat m := match_char hj (by omega)
    have he : i + ((j - i) + m) = j + m := by omega
    rw [he] at h1
    exact h1.symm.trans h2
  exact no_self_overlap pat hpat (j - i) hdlt hd1 ⟨hwcf, hshift⟩

theorem countFrom_zero (s pat : List Char) : countFrom s pat 0 = countPos s pat := by
  unfold countFrom countPos
  congr 1
  apply Finset.filter_congr
  intro j _
  simp

theorem countFrom_of_ge {s pat : List Char} {i : Nat} (h : s.length ≤ i) :
    countFrom s pat i = 0 := by
  unfold countFrom
  rw [Finset.card_eq_zero, Finset.filter_eq_empty_iff]
  intro j hj
  rw [Finset.mem_range] at hj
  intro hcon
  omega

theorem countFrom_succ_of_match {s pat : List Char} {i : Nat} (hi : i < s.length)
    (hm : matchAt s pat i = true) :
    countFrom s pat i = countFrom s pat (i + 1) + 1 := by
  unfold countFrom
  have hset : ((Finset.range s.length).filter
        fun j => i ≤ j ∧ matchAt s pat j = true) =
      insert i ((Finset.range s.length).filter
        fun j => i + 1 ≤ j ∧ matchAt s pat j = true) := by
    ext j
    simp only [Finset.mem_filter, Finset.mem_insert, Finset.mem_range]
    constructor
    · rintro ⟨hjr, hij, hmj⟩
      rcases Nat.eq_or_lt_of_le hij with heq | hlt
      · exact Or.inl heq.symm
      · exact Or.inr ⟨hjr, hlt, hmj⟩
    · rintro (rfl | ⟨hjr, hij, hmj⟩)
      · exact ⟨hi, Nat.le_refl _, hm⟩
      · exact ⟨hjr, by omega, hmj⟩
  rw [hset, Finset.card_insert_of_not_mem]
  simp only [Finset.mem_filter, Finset.mem_range]
  intro hcon
  omega

theorem countFrom_succ_of_not {s pat : List Char} {i : Nat}
    (hm : matchAt s pat i = false) :
    countFrom s pat i = countFrom s pat (i + 1) := by
  unfold countFrom
  congr 1
  apply Finset.filter_congr
  intro j _
  constructor
  · rintro ⟨hij, hmj⟩
    rcases Nat.eq_or_lt_of_le hij with heq | hlt
    · rw [← heq] at hmj
      rw [hmj] at hm
      cases hm
    · exact ⟨hlt, hmj⟩
  · rintro ⟨hij, hmj⟩
    exact ⟨by omega, hmj⟩

theorem countFrom_stretch {s pat : List Char} {i : Nat} (k : Nat)
    (hnm : ∀ j, i ≤ j → j < i + k → matchAt s pat j = false) :
    countFrom s pat i = countFrom s pat (i + k) := by
  induction k generalizing i with
  | zero => rfl
  | succ k ih =>
    have h1 : countFrom s pat i = countFrom s pat (i + 1) :=
      countFrom_succ_of_not (hnm i (Nat.le_refl _) (by omega))
    have h2 : countFrom s pat (i + 1) = countFrom s pat (i + 1 + k) :=
      ih (fun j hj hjk => hnm j (by omega) (by omega))
    rw [h1, h2]
    congr 1
    omega

theorem scanAux_eq_countFrom {s pat : List Char} (hone : 1 ≤ pat.length)
    (hno : ∀ i j, matchAt s pat i = true → matchAt s pat j = true → i < j →
      i + pat.length ≤ j) :
    ∀ fuel i, s.length + 1 ≤ fuel + i → scanAux s pat fuel i = countFrom s pat i := by
  intro fuel
  induction fuel with
  | zero =>
    intro i hfi
    rw [countFrom_of_ge (by omega)]
    rfl
  | succ fuel ih =>
    intro i hfi
    rw [scanAux]
    split
    · next hlen => rw [countFrom_of_ge hlen]
    · next hlen =>
      push_neg at hlen
      split
      · next hm =>
        rw [ih (i + pat.length) (by omega)]
        have h1 : countFrom s pat i = countFrom s pat (i + 1) + 1 :=
          countFrom_succ_of_match hlen hm
        have h2 : countFrom s pat (i + 1) = countFrom s pat (i + 1 + (pat.length - 1)) :=
          countFrom_stretch (pat.length - 1) (by
            intro j hj hjk
            by_contra hcon
            rw [Bool.not_eq_false] at hcon
            have := hno i j hm hcon (by omega)
            omega)
        have he : i + 1 + (pat.length - 1) = i + pat.length := by omega
        rw [he] at h2
        omega
      · next hm =>
        rw [ih (i + 1) (by omega)]
        exact (countFrom_succ_of_not (Bool.not_eq_true _ ▸ hm)).symm

/-- For the six filler patterns, the `re.findall` scan count equals the
number of matching positions. -/
theorem scanCount_eq_countPos {pat : List Char} (hpat : pat ∈ fillerVocab)
    (s : List Char) : scanCount s pat = countPos s pat := by
  have hone : 1 ≤ pat.length := (vocab_edge pat hpat).1
  rw [scanCount, scanAux_eq_countFrom hone
    (fun i j hi hj hij => match_no_overlap hpat hi hj hij) (s.length + 1) 0 (by omega)]
  exact countFrom_zero s pat

/-! ## No match overlaps a word-extended occurrence

If an occurrence of a vocabulary term `t` inside a transcript is extended
on either side by word characters (`a` before, `b` after, not both empty),
then no match of any vocabulary pattern `u` can overlap the extended block
`a ++ t ++ b`: the word-character extension glues `t`'s tokens into longer
tokens that match no token of any pattern. -/

theorem match_block_disjoint {t u : List Char} (ht : t ∈ fillerVocab)
    (hu : u ∈ fillerVocab) (p a b s : List Char)
    (ha : ∀ c ∈ a, wc c = true) (hb : ∀ c ∈ b, wc c = true)
    (hab : a ≠ [] ∨ b ≠ []) {i : Nat}
    (hm : matchAt (p ++ a ++ t ++ b ++ s) u i = true) :
    i + u.length ≤ p.length ∨
    p.length + a.length + t.length + b.length ≤ i := by
  by_contra hcon
  push_neg at hcon
  obtain ⟨hP, hI⟩ := hcon
  have hui : 1 ≤ u.length := (vocab_edge u hu).1
  have hti : 1 ≤ t.length := (vocab_edge t ht).1
  have hatA : ∀ n, p.length ≤ n → n < p.length + a.length →
      wc (charAt (p ++ a ++ t ++ b ++ s) n) = true := by
    intro n h1 h2
    rw [charAt_five, if_neg (by omega), if_pos (by omega)]
    exact charAt_of_mem_forall ha (by omega)
  have hatT : ∀ m, m < t.length →
      charAt (p ++ a ++ t ++ b ++ s) (p.length + a.length + m) = charAt t m := by
    intro m hmt
    rw [charAt_five, if_neg (by omega), if_neg (by omega), if_pos (by omega)]
    congr 1
    omega
  have hatB : ∀ n, p.length + a.length + t.length ≤ n →
      n < p.length + a.length + t.length + b.length →
      wc (charAt (p ++ a ++ t ++ b ++ s) n) = true := by
    intro n h1 h2
    rw [charAt_five, if_neg (by omega), if_neg (by omega), if_neg (by omega),
      if_pos (by omega)]
    exact charAt_of_mem_forall hb (by omega)
  have hcov : ∀ n, i ≤ n → n < i + u.length →
      charAt (p ++ a ++ t ++ b ++ s) n = charAt u (n - i) := by
    intro n h1 h2
    have h := match_char hm (j := n - i) (by omega)
    rw [show i + (n - i) = n by omega] at h
    exact h
  rcases vocab_cases t ht with htS | ⟨pr, hpr, hteq⟩
  · -- `t` is a single all-word-character token, so the whole block
    -- `a ++ t ++ b` is one word-character region.
    have htw := singleToks_word t htS
    have hwordBlock : ∀ n, p.length ≤ n →
        n < p.length + a.length + t.length + b.length →
        wc (charAt (p ++ a ++ t ++ b ++ s) n) = true := by
      intro n h1 h2
      by_cases hA : n < p.length + a.length
      · exact hatA n h1 hA
      · by_cases hTr : n < p.length + a.length + t.length
        · rw [show n = p.length + a.length + (n - p.length - a.length) by omega,
            hatT _ (by omega)]
          exact htw _ (by omega)
        · exact hatB n (by omega) h2
    have hq : ∃ q, i ≤ q ∧ q < i + u.length ∧ p.length ≤ q ∧
        q < p.length + a.length + t.length + b.length := by
      rcases Nat.le_total i p.length with hip | hip
      · exact ⟨p.length, hip, by omega, Nat.le_refl _, by omega⟩
      · exact ⟨i, Nat.le_refl _, by omega, hip, by omega⟩
    obtain ⟨q, hq1, hq2, hq3, hq4⟩ := hq
    have hiP : i ≤ p.length :=
      match_absorb_left hm hq1 hq2 (fun m h1 h2 => hwordBlock m (by omega) (by omega))
    have hend : p.length + a.length + t.length + b.length - 1 < i + u.length :=
      match_absorb_right hm hq1 hq2 (fun m h1 h2 => hwordBlock m (by omega) (by omega))
    have hd_le : (p.length + a.length - i) + t.length ≤ u.length := by omega
    have hchars : ∀ m, m < t.length →
        charAt u ((p.length + a.length - i) + m) = charAt t m := by
      intro m hmt
      have h1 := hcov (p.length + a.length + m) (by omega) (by omega)
      rw [hatT m hmt] at h1
      rw [show p.length + a.length + m - i = (p.length + a.length - i) + m by omega] at h1
      exact h1.symm
    have hext : (1 ≤ (p.length + a.length - i) ∧
          wc (charAt u ((p.length + a.length - i) - 1)) = true) ∨
        ((p.length + a.length - i) + t.length < u.length ∧
          wc (charAt u ((p.length + a.length - i) + t.length)) = true) := by
      rcases hab with hA | hB
      · have hA1 : 1 ≤ a.length := List.length_pos.mpr hA
        left
        refine ⟨by omega, ?_⟩
        have h1 := hcov (p.length + a.length - 1) (by omega) (by omega)
        have h2 := hatA (p.length + a.length - 1) (by omega) (by omega)
        rw [h1] at h2
        rwa [show p.length + a.length - 1 - i = (p.length + a.length - i) - 1 by omega]
          at h2
      · have hB1 : 1 ≤ b.length := List.length_pos.mpr hB
        right
        refine ⟨by omega, ?_⟩
        have h1 := hcov (p.length + a.length + t.length) (by omega) (by omega)
        have h2 := hatB (p.length + a.length + t.length) (by omega) (by omega)
        rw [h1] at h2
        rwa [show p.length + a.length + t.length - i =
          (p.length + a.length - i) + t.length by omega] at h2
    exact no_extended_single u hu t htS (p.length + a.length - i) (by omega)
      hd_le hchars hext
  · -- `t` is two tokens `pr.1`, `pr.2` separated by one space.
    obtain ⟨hw1, hw2, hL1, hL2⟩ := pair_word pr hpr
    subst hteq
    have hT : (pr.1 ++ ' ' :: pr.2).length = pr.1.length + 1 + pr.2.length := by
      simp only [List.length_append, List.length_cons]
      omega
    have ht1 : ∀ m, m < pr.1.length →
        charAt (pr.1 ++ ' ' :: pr.2) m = charAt pr.1 m :=
      fun m hm2 => charAt_append_left hm2
    have htsp : charAt (pr.1 ++ ' ' :: pr.2) pr.1.length = ' ' := by
      rw [charAt_append_right (Nat.le_refl _), Nat.sub_self]
      rfl
    have ht2 : ∀ m, m < pr.2.length →
        charAt (pr.1 ++ ' ' :: pr.2) (pr.1.length + 1 + m) = charAt pr.2 m := by
      intro m hm2
      rw [charAt_append_right (by omega),
        show pr.1.length + 1 + m - pr.1.length = m + 1 by omega]
      exact charAt_cons_succ _ _ m
    have hwordL : ∀ n, p.length ≤ n → n < p.length + a.length + pr.1.length →
        wc (charAt (p ++ a ++ (pr.1 ++ ' ' :: pr.2) ++ b ++ s) n) = true := by
      intro n h1 h2
      by_cases hA : n < p.length + a.length
      · exact hatA n h1 hA
      · rw [show n = p.length + a.length + (n - p.length - a.length) by omega,
          hatT _ (by omega), ht1 _ (by omega)]
        exact hw1 _ (by omega)
    have hwordR : ∀ n, p.length + a.length + pr.1.length + 1 ≤ n →
        n < p.length + a.length + (pr.1 ++ ' ' :: pr.2).length + b.length →
        wc (charAt (p ++ a ++ (pr.1 ++ ' ' :: pr.2) ++ b ++ s) n) = true := by
      intro n h1 h2
      by_cases hTr : n < p.length + a.length + (pr.1 ++ ' ' :: pr.2).length
      · rw [show n = p.length + a.length + (n - p.length - a.length) by omega,
          hatT _ (by omega),
          show n - p.length - a.length =
            pr.1.length + 1 + (n - p.length - a.length - pr.1.length - 1) by omega,
          ht2 _ (by omega)]
        exact hw2 _ (by omega)
      · exact hatB n (by omega) h2
    have hspace :
        charAt (p ++ a ++ (pr.1 ++ ' ' :: pr.2) ++ b ++ s)
          (p.length + a.length + pr.1.length) = ' ' := by
      have h := hatT pr.1.length (by omega)
      rwa [htsp] at h
    by_cases hC : i ≤ p.length + a.length + pr.1.length
    · by_cases hsp : p.length + a.length + pr.1.length < i + u.length
      · -- the match covers the separating space, so `u` is two-token as
        -- well, with its space aligned on the block's space
        have hspu : charAt u (p.length + a.length + pr.1.length - i) = ' ' := by
          have h := hcov (p.length + a.length + pr.1.length) hC hsp
          rw [hspace] at h
          exact h.symm
        obtain ⟨pu, hpu, hueq, hM⟩ := vocab_space u hu _ (by omega) hspu
        obtain ⟨hw1u, hw2u, hM1, hM2⟩ := pair_word pu hpu
        subst hueq
        have hU : (pu.1 ++ ' ' :: pu.2).length = pu.1.length + 1 + pu.2.length := by
          simp only [List.length_append, List.length_cons]
          omega
        have hiP : i ≤ p.length :=
          match_absorb_left hm (j := p.length + a.length + pr.1.length - 1)
            (by omega) (by omega)
            (fun m h1 h2 => hwordL m (by omega) (by omega))
        have hsufL : pr.1.length ≤ pu.1.length := by omega
        have hsuf : ∀ m, m < pr.1.length →
            charAt pu.1 (pu.1.length - pr.1.length + m) = charAt pr.1 m := by
          intro m hmL
          have hcv := hcov (p.length + a.length + m) (by omega) (by omega)
          rw [hatT m (by omega), ht1 m hmL] at hcv
          rw [show p.length + a.length + m - i =
            pu.1.length - pr.1.length + m by omega] at hcv
          rw [charAt_append_left (by omega)] at hcv
          exact hcv.symm
        have hu1eq : pu.1 = pr.1 := tok1_suffix_eq pu hpu pr hpr hsufL hsuf
        have hu1len : pu.1.length = pr.1.length := by rw [hu1eq]
        have hA0 : a.length = 0 ∧ i = p.length := by omega
        have hendcov :
            p.length + a.length + (pr.1 ++ ' ' :: pr.2).length + b.length - 1 <
              i + (pu.1 ++ ' ' :: pu.2).length :=
          match_absorb_right hm (j := p.length + a.length + pr.1.length + 1)
            (by omega) (by omega)
            (fun m h1 h2 => hwordR m (by omega) (by omega))
        have hpre : ∀ m, m < pr.2.length →
            charAt pu.2 m = charAt pr.2 m := by
          intro m hmL
          have hcv := hcov (p.length + a.length + pr.1.length + 1 + m)
            (by omega) (by omega)
          rw [show p.length + a.length + pr.1.length + 1 + m =
              p.length + a.length + (pr.1.length + 1 + m) by omega,
            hatT _ (by omega), ht2 m hmL] at hcv
          rw [show p.length + a.length + (pr.1.length + 1 + m) - i =
            pu.1.length + 1 + m by omega] at hcv
          rw [charAt_append_right (by omega),
            show pu.1.length + 1 + m - pu.1.length = m + 1 by omega,
            charAt_cons_succ] at hcv
          exact hcv.symm
        have hpreL : pr.2.length ≤ pu.2.length := by omega
        have hu2eq : pu.2 = pr.2 := tok2_prefix_eq pu hpu pr hpr hpreL hpre
        have hu2len : pu.2.length = pr.2.length := by rw [hu2eq]
        have hb0 : b = [] := List.length_eq_zero.mp (by omega)
        have ha0 : a = [] := List.length_eq_zero.mp hA0.1
        rcases hab with h | h
        · exact h ha0
        · exact h hb0
      · -- the match ends at the space, so `u` ends with the block's
        -- first token extended on the left
        push_neg at hsp
        have hq : ∃ q, i ≤ q ∧ q < i + u.length ∧ p.length ≤ q ∧
            q < p.length + a.length + pr.1.length := by
          rcases Nat.le_total i p.length with hip | hip
          · exact ⟨p.length, hip, by omega, Nat.le_refl _, by omega⟩
          · exact ⟨i, Nat.le_refl _, by omega, hip, by omega⟩
        obtain ⟨q, hq1, hq2, hq3, hq4⟩ := hq
        have hiP : i ≤ p.length :=
          match_absorb_left hm hq1 hq2
            (fun m h1 h2 => hwordL m (by omega) (by omega))
        have hsp1 : p.length + a.length + pr.1.length - 1 < i + u.length :=
          match_absorb_right hm hq1 hq2
            (fun m h1 h2 => hwordL m (by omega) (by omega))
        have hspeq : i + u.length = p.length + a.length + pr.1.length := by omega
        have hsuf : ∀ m, m < pr.1.length →
            charAt u (u.length - pr.1.length + m) = charAt pr.1 m := by
          intro m hmL
          have hcv := hcov (p.length + a.length + m) (by omega) (by omega)
          rw [hatT m (by omega), ht1 m hmL] at hcv
          rw [show p.length + a.length + m - i =
            u.length - pr.1.length + m by omega] at hcv
          exact hcv.symm
        exact no_suffix_tok1 u hu pr hpr ⟨by omega, hsuf⟩
    · -- the match starts after the space, so `u` starts with the block's
      -- second token
      push_neg at hC
      have hieq : i = p.length + a.length + pr.1.length + 1 := by
        have hile : i ≤ p.length + a.length + pr.1.length + 1 :=
          match_absorb_left hm (j := i) (Nat.le_refl _) (by omega)
            (fun m h1 h2 => hwordR m (by omega) (by omega))
        omega
      have hendcov :
          p.length + a.length + (pr.1 ++ ' ' :: pr.2).length + b.length - 1 <
            i + u.length :=
        match_absorb_right hm (j := i) (Nat.le_refl _) (by omega)
          (fun m h1 h2 => hwordR m (by omega) (by omega))
      have hpre : ∀ m, m < pr.2.length → charAt u m = charAt pr.2 m := by
        intro m hmL
        have hcv := hcov (p.length + a.length + pr.1.length + 1 + m)
          (by omega) (by omega)
        rw [show p.length + a.length + pr.1.length + 1 + m =
            p.length + a.length + (pr.1.length + 1 + m) by omega,
          hatT _ (by omega), ht2 m hmL] at hcv
        rw [show p.length + a.length + (pr.1.length + 1 + m) - i = m by omega] at hcv
        exact hcv.symm
      exact no_prefix_tok2 u hu pr hpr ⟨by omega, hpre⟩

/-- Every match of `u` on the extended transcript avoids the block, lies
strictly inside the prefix or the suffix region, and transfers to a match
of `u` on the unextended transcript. -/
theorem match_transfer_of_block {t u : List Char} (ht : t ∈ fillerVocab)
    (hu : u ∈ fillerVocab) (p a b s : List Char)
    (ha : ∀ c ∈ a, wc c = true) (hb : ∀ c ∈ b, wc c = true)
    (hab : a ≠ [] ∨ b ≠ []) {i : Nat}
    (hm : matchAt (p ++ a ++ t ++ b ++ s) u i = true) :
    (i + u.length < p.length ∧ matchAt (p ++ t ++ s) u i = true) ∨
    (p.length + a.length + t.length + b.length < i ∧
      matchAt (p ++ t ++ s) u (i - a.length - b.length) = true) := by
  have hui : 1 ≤ u.length := (vocab_edge u hu).1
  have hti : 1 ≤ t.length := (vocab_edge t ht).1
  have hlen5 : (p ++ a ++ t ++ b ++ s).length =
      p.length + a.length + t.length + b.length + s.length := by
    simp only [List.length_append]
  have hlen3 : (p ++ t ++ s).length = p.length + t.length + s.length := by
    simp only [List.length_append]
  obtain hmi := matchAt_iff.mp hm
  rcases match_block_disjoint ht hu p a b s ha hb hab hm with hL | hR
  · -- the match lies in the prefix region
    have hstrict : i + u.length < p.length := by
      rcases Nat.lt_or_ge (i + u.length) p.length with h | h
      · exact h
      · exfalso
        have heq : i + u.length = p.length := by omega
        have hwcP : wc (charAt (p ++ a ++ t ++ b ++ s) p.length) = true := by
          by_cases hA : 0 < a.length
          · rw [charAt_five, if_neg (by omega), if_pos (by omega)]
            exact charAt_of_mem_forall ha (by omega)
          · rw [charAt_five, if_neg (by omega), if_neg (by omega),
              if_pos (by omega),
              show p.length - p.length - a.length = 0 by omega]
            exact (vocab_edge t ht).2.1
        have hnw := match_no_wc_right hm
        rw [heq, hwcP] at hnw
        cases hnw
    refine Or.inl ⟨hstrict, ?_⟩
    rw [matchAt_iff]
    refine ⟨by omega, ?_, ?_, ?_⟩
    · intro j hj
      have h1 := hmi.2.1 j hj
      rw [charAt_five, if_pos (by omega)] at h1
      rw [charAt_three, if_pos (by omega)]
      exact h1
    · by_cases hi0 : i = 0
      · exact Or.inl hi0
      · right
        have h := (hmi.2.2.1).resolve_left hi0
        rw [charAt_five, if_pos (by omega)] at h
        rw [charAt_three, if_pos (by omega)]
        exact h
    · have h := hmi.2.2.2
      rw [charAt_five, if_pos (by omega)] at h
      rw [charAt_three, if_pos (by omega)]
      exact h
  · -- the match lies in the suffix region
    have hstrict : p.length + a.length + t.length + b.length < i := by
      rcases Nat.lt_or_ge (p.length + a.length + t.length + b.length) i with h | h
      · exact h
      · exfalso
        have heq : i = p.length + a.length + t.length + b.length := by omega
        have hwcE : wc (charAt (p ++ a ++ t ++ b ++ s) (i - 1)) = true := by
          by_cases hB : 0 < b.length
          · rw [charAt_five, if_neg (by omega), if_neg (by omega),
              if_neg (by omega), if_pos (by omega)]
            exact charAt_of_mem_forall hb (by omega)
          · rw [charAt_five, if_neg (by omega), if_neg (by omega),
              if_pos (by omega),
              show i - 1 - p.length - a.length = t.length - 1 by omega]
            exact (vocab_edge t ht).2.2
        have hnw := match_no_wc_left hm (by omega)
        rw [hwcE] at hnw
        cases hnw
    refine Or.inr ⟨hstrict, ?_⟩
    rw [matchAt_iff]
    refine ⟨by omega, ?_, ?_, ?_⟩
    · intro j hj
      have h1 := hmi.2.1 j hj
      rw [charAt_five, if_neg (by omega), if_neg (by omega), if_neg (by omega),
        if_neg (by omega)] at h1
      rw [charAt_three, if_neg (by omega), if_neg (by omega),
        show i - a.length - b.length + j - p.length - t.length =
          i + j - p.length - a.length - t.length - b.length by omega]
      exact h1
    · right
      have h := (hmi.2.2.1).resolve_left (by omega)
      rw [charAt_five, if_neg (by omega), if_neg (by omega), if_neg (by omega),
        if_neg (by omega)] at h
      rw [charAt_three, if_neg (by omega), if_neg (by omega),
        show i - a.length - b.length - 1 - p.length - t.length =
          i - 1 - p.length - a.length - t.length - b.length by omega]
      exact h
    · have h := hmi.2.2.2
      rw [charAt_five, if_neg (by omega), if_neg (by omega), if_neg (by omega),
        if_neg (by omega)] at h
      rw [charAt_three, if_neg (by omega), if_neg (by omega),
        show i - a.length - b.length + u.length - p.length - t.length =
          i + u.length - p.length - a.length - t.length - b.length by omega]
      exact h

/-- Inserting word characters around an occurrence of a vocabulary term
never increases the number of match positions of any vocabulary
pattern. -/
theorem countPos_block_le {t u : List Char} (ht : t ∈ fillerVocab)
    (hu : u ∈ fillerVocab) (p a b s : List Char)
    (ha : ∀ c ∈ a, wc c = true) (hb : ∀ c ∈ b, wc c = true)
    (hab : a ≠ [] ∨ b ≠ []) :
    countPos (p ++ a ++ t ++ b ++ s) u ≤ countPos (p ++ t ++ s) u := by
  have hui : 1 ≤ u.length := (vocab_edge u hu).1
  unfold countPos
  apply Finset.card_le_card_of_injOn
    (fun i => if i < p.length then i else i - a.length - b.length)
  · intro x hx
    rw [Finset.mem_filter, Finset.mem_range] at hx
    obtain ⟨hxr, hxm⟩ := hx
    rw [Finset.mem_filter, Finset.mem_range]
    rcases match_transfer_of_block ht hu p a b s ha hb hab hxm with
      ⟨hlt, hmS⟩ | ⟨hgt, hmS⟩
    · rw [if_pos (by omega)]
      exact ⟨by have := match_le_length hmS; omega, hmS⟩
    · rw [if_neg (by omega)]
      exact ⟨by have := match_le_length hmS; omega, hmS⟩
  · intro x hx y hy hfe
    rw [Finset.mem_coe, Finset.mem_filter, Finset.mem_range] at hx hy
    rcases match_transfer_of_block ht hu p a b s ha hb hab hx.2 with
      ⟨hx1, _⟩ | ⟨hx1, _⟩ <;>
      rcases match_transfer_of_block ht hu p a b s ha hb hab hy.2 with
        ⟨hy1, _⟩ | ⟨hy1, _⟩ <;>
      simp only [] at hfe
    · rwa [if_pos (by omega), if_pos (by omega)] at hfe
    · rw [if_pos (by omega), if_neg (by omega)] at hfe
      omega
    · rw [if_neg (by omega), if_pos (by omega)] at hfe
      omega
    · rw [if_neg (by omega), if_neg (by omega)] at hfe
      omega

/-- `re.findall`-count form of `countPos_block_le`. -/
theorem scanCount_block_le {t u : List Char} (ht : t ∈ fillerVocab)
    (hu : u ∈ fillerVocab) (p a b s : List Char)
    (ha : ∀ c ∈ a, wc c = true) (hb : ∀ c ∈ b, wc c = true)
    (hab : a ≠ [] ∨ b ≠ []) :
    scanCount (p ++ a ++ t ++ b ++ s) u ≤ scanCount (p ++ t ++ s) u := by
  rw [scanCount_eq_countPos hu, scanCount_eq_countPos hu]
  exact countPos_block_le ht hu p a b s ha hb hab

/-! ## Lowercasing -/

theorem upperLower_wc : ∀ q ∈ upperLower, wc q.1 = true ∧ wc q.2 = true := by
  decide

theorem wc_pyLowerChar (c : Char) : wc (pyLowerChar c) = wc c := by
  unfold pyLowerChar
  cases h : upperLower.lookup c with
  | none => rfl
  | some v =>
    obtain ⟨l₁, l₂, heq, -⟩ := List.lookup_eq_some_iff.mp h
    have hmem : (c, v) ∈ upperLower := by
      rw [heq]
      simp
    have hq := upperLower_wc _ hmem
    simp only [Option.getD_some]
    rw [hq.2, hq.1]

theorem pyLower_append (x y : List Char) :
    pyLower (x ++ y) = pyLower x ++ pyLower y := by
  simp [pyLower]

theorem pyLower_word {x : List Char} (hx : ∀ c ∈ x, wc c = true) :
    ∀ c ∈ pyLower x, wc c = true := by
  intro c hc
  obtain ⟨c', hc', rfl⟩ := List.mem_map.mp hc
  rw [wc_pyLowerChar]
  exact hx c' hc'

theorem pyLower_ne_nil {x : List Char} (hx : x ≠ []) : pyLower x ≠ [] := by
  simp [pyLower, hx]

/-! ## Reports as finite maps -/

theorem counts_lookup (f : List Char → Nat) :
    ∀ (l : List (List Char)) (u : List Char),
      lookupCount ((l.map fun t => (t, f t)).filter fun q => decide (0 < q.2)) u =
        if u ∈ l then f u else 0 := by
  intro l
  induction l with
  | nil =>
    intro u
    simp [lookupCount]
  | cons t l ih =>
    intro u
    unfold lookupCount at ih ⊢
    simp only [List.map_cons, List.filter_cons]
    by_cases h0 : 0 < f t
    · rw [if_pos (by simpa using h0)]
      by_cases hu : u = t
      · subst hu
        rw [List.lookup_cons_self]
        simp
      · rw [List.lookup_cons]
        have hbeq : (u == t) = false := by simp [hu]
        rw [hbeq, ih u]
        simp [List.mem_cons, hu]
    · rw [if_neg (by simpa using h0)]
      rw [ih u]
      have hf0 : f t = 0 := by omega
      by_cases hu : u = t
      · subst hu
        by_cases hl : u ∈ l <;> simp [hl, hf0]
      · simp [List.mem_cons, hu]

theorem lookupCount_analyze (s u : List Char) :
    lookupCount (analyze_filler_words s) u =
      if u ∈ fillerVocab then scanCount (pyLower s) u else 0 := by
  unfold analyze_filler_words
  exact counts_lookup (fun t => scanCount (pyLower s) t) fillerVocab u

/-- Core of the word-boundary property: extending an occurrence of a
vocabulary term with word characters (in either direction, not both
empty) never increases the count reported for any term. -/
theorem analyze_block_le (p a b s t : List Char) (ht : t ∈ fillerVocab)
    (ha : ∀ c ∈ a, wc c = true) (hb : ∀ c ∈ b, wc c = true)
    (hab : a ≠ [] ∨ b ≠ []) (u : List Char) :
    lookupCount (analyze_filler_words (p ++ a ++ t ++ b ++ s)) u ≤
      lookupCount (analyze_filler_words (p ++ t ++ s)) u := by
  rw [lookupCount_analyze, lookupCount_analyze]
  by_cases hu : u ∈ fillerVocab
  · rw [if_pos hu, if_pos hu]
    have hdist5 : pyLower (p ++ a ++ t ++ b ++ s) =
        pyLower p ++ pyLower a ++ pyLower t ++ pyLower b ++ pyLower s := by
      simp [pyLower]
    have hdist3 : pyLower (p ++ t ++ s) =
        pyLower p ++ pyLower t ++ pyLower s := by
      simp [pyLower]
    rw [hdist5, hdist3, vocab_lower t ht]
    refine scanCount_block_le ht hu (pyLower p) (pyLower a) (pyLower b) (pyLower s)
      (pyLower_word ha) (pyLower_word hb) ?_
    rcases hab with h | h
    · exact Or.inl (pyLower_ne_nil h)
    · exact Or.inr (pyLower_ne_nil h)
  · rw [if_neg hu, if_neg hu]

/-! ## `str.split()` and the word count -/

theorem tokenStartsFrom_cons (c : Char) (rest : List Char) (w : Bool) :
    tokenStartsFrom (c :: rest) w =
      (if !pyIsSpace c && !w then 1 else 0) + tokenStartsFrom rest (!pyIsSpace c) := by
  unfold tokenStartsFrom
  rw [List.length_cons, List.range_succ_eq_map, List.countP_cons, List.countP_map]
  have hzero :
      (!pyIsSpace (charAt (c :: rest) 0) &&
        (if (0 : Nat) = 0 then !w else pyIsSpace (charAt (c :: rest) (0 - 1)))) =
      (!pyIsSpace c && !w) := by
    simp [charAt]
  have hcongr : ∀ m, m ∈ List.range rest.length →
      ((fun i => !pyIsSpace (charAt (c :: rest) i) &&
          (if i = 0 then !w else pyIsSpace (charAt (c :: rest) (i - 1)))) ∘ Nat.succ) m =
      (fun i => !pyIsSpace (charAt rest i) &&
          (if i = 0 then !(!pyIsSpace c) else pyIsSpace (charAt rest (i - 1)))) m := by
    intro m hm
    simp only [Function.comp_apply]
    rw [if_neg (Nat.succ_ne_zero m)]
    rw [show charAt (c :: rest) (Nat.succ m) = charAt rest m from rfl]
    rcases Nat.eq_zero_or_pos m with rfl | hpos
    · rw [if_pos rfl]
      simp [charAt]
    · rw [if_neg (by omega),
        show Nat.succ m - 1 = (m - 1) + 1 by omega,
        show charAt (c :: rest) ((m - 1) + 1) = charAt rest (m - 1) from rfl]
  rw [List.countP_congr (fun m hm => by rw [hcongr m hm]), hzero]
  omega

theorem countTok_eq (s : List Char) : ∀ w : Bool,
    countTok s w = (if w then 1 else 0) + tokenStartsFrom s w := by
  induction s with
  | nil =>
    intro w
    simp [countTok, tokenStartsFrom]
  | cons c rest ih =>
    intro w
    rw [tokenStartsFrom_cons]
    by_cases hc : pyIsSpace c = true
    · rw [show countTok (c :: rest) w = (if w then 1 else 0) + countTok rest false by
        simp [countTok, hc]]
      rw [ih false, hc]
      simp
    · rw [Bool.not_eq_true] at hc
      rw [show countTok (c :: rest) w = countTok rest true by simp [countTok, hc]]
      rw [ih true, hc]
      cases w <;> simp

theorem pySplitAux_length (s : List Char) : ∀ acc : List Char,
    (pySplitAux s acc).length = countTok s (!acc.isEmpty) := by
  induction s with
  | nil =>
    intro acc
    by_cases h : acc.isEmpty <;> simp [pySplitAux, countTok, h]
  | cons c rest ih =>
    intro acc
    by_cases hc : pyIsSpace c = true
    · by_cases h : acc.isEmpty = true
      · simp [pySplitAux, countTok, hc, h, ih]
      · rw [Bool.not_eq_true] at h
        have hih := ih []
        simp only [List.isEmpty_nil, Bool.not_true] at hih
        simp [pySplitAux, countTok, hc, h, hih]
        omega
    · rw [Bool.not_eq_true] at hc
      simp [pySplitAux, countTok, hc, ih]

/-- `len(transcript.split())` counts the maximal whitespace-separated
tokens. -/
theorem pySplit_length (s : List Char) : (pySplit s).length = tokenStarts s := by
  rw [pySplit, pySplitAux_length s [], tokenStarts]
  rw [show (List.isEmpty ([] : List Char)) = true from rfl]
  rw [countTok_eq]
  simp

/-! ## Workspace allocation (`analyze_audio` lines 94-105) -/

theorem splitextRoot_eq_take (path : List Char) :
    splitextRoot path = path.take (splitextRoot path).length := by
  unfold splitextRoot
  cases lastIndexOf path '.' with
  | none => simp
  | some d =>
    simp only
    split
    · rw [List.length_take]
      rcases Nat.le_total d path.length with hd | hd
      · rw [Nat.min_eq_left hd]
      · rw [Nat.min_eq_right hd, List.take_of_length_le hd, List.take_length]
    · simp

theorem splitextRoot_append_ext (path : List Char) :
    splitextRoot path ++ splitextExt path = path := by
  conv_lhs => rw [splitextRoot_eq_take path]
  exact List.take_append_drop _ path

/-! ## The File Locator, against the spec's case-insensitive-suffix
contract -/

theorem extensions_lower : ∀ e ∈ audio_extensions, pyLower e = e := by decide

theorem isSuffixOf_eq_spec_one (ext f : List Char) (hl : pyLower ext = ext) :
    ext.isSuffixOf (pyLower f) =
      (decide (ext.length ≤ f.length) &&
        decide (pyLower (lastN f ext.length) = pyLower ext)) := by
  rw [Bool.eq_iff_iff]
  simp only [Bool.and_eq_true, decide_eq_true_iff, List.isSuffixOf_iff_suffix]
  have hflen : (pyLower f).length = f.length := by simp [pyLower]
  have hlast : pyLower (lastN f ext.length) =
      (pyLower f).drop (f.length - ext.length) := by
    simp [pyLower, lastN]
  constructor
  · intro h
    have hlen : ext.length ≤ f.length := by
      have := h.length_le
      omega
    refine ⟨hlen, ?_⟩
    have hdrop := List.suffix_iff_eq_drop.mp h
    rw [hflen] at hdrop
    rw [hl, hlast]
    exact hdrop.symm
  · rintro ⟨hlen, heq⟩
    rw [List.suffix_iff_eq_drop, hflen]
    rw [hl, hlast] at heq
    exact heq.symm

theorem any_congr_list {l : List (List Char)} {f g : List Char → Bool}
    (h : ∀ e ∈ l, f e = g e) : l.any f = l.any g := by
  induction l with
  | nil => rfl
  | cons e es ih =>
    simp only [List.any_cons]
    rw [h e (List.mem_cons_self e es),
      ih (fun x hx => h x (List.mem_cons_of_mem e hx))]

/-- The code's test (`lower` the whole name, then exact suffix test)
computes exactly the spec's case-insensitive-suffix contract. -/
theorem isAudioName_eq_spec (f : List Char) :
    isAudioName f = spec_isSupportedAudio f := by
  unfold isAudioName spec_isSupportedAudio
  exact any_congr_list
    (fun e he => isSuffixOf_eq_spec_one e f (extensions_lower e he))

/-! ## The structured record (`ContentReview`) and its validation -/

theorem parseStrList_inv : ∀ {items : List JVal} {l : List (List Char)},
    parseStrList items = some l → items = l.map JVal.jstr := by
  intro items
  induction items with
  | nil =>
    intro l h
    rw [parseStrList] at h
    injection h with h2
    rw [← h2]
    rfl
  | cons v rest ih =>
    intro l h
    cases v with
    | jstr w =>
      rw [parseStrList] at h
      cases hrest : parseStrList rest with
      | none => rw [hrest] at h; cases h
      | some tl =>
        rw [hrest] at h
        rw [show Option.map (fun x => w :: x) (some tl) = some (w :: tl) from rfl] at h
        injection h with h2
        rw [← h2]
        simp only [List.map_cons]
        rw [ih hrest]
    | jarr xs => simp [parseStrList] at h
    | jnum n => simp [parseStrList] at h
    | jbool bv => simp [parseStrList] at h
    | jnull => simp [parseStrList] at h

/-- Inversion: an accepted `ContentReview` pins down every field of the
response record. -/
theorem parseReview_ok_inv {obj : List (String × JVal)} {r : ContentReview}
    (h : parseReview obj = .ok r) :
    obj.lookup "summary" = some (.jstr r.summary) ∧
    (∃ v, obj.lookup "story_strength" = some v ∧
      parseStrength v = some r.story_strength) ∧
    (∃ v, obj.lookup "story_length" = some v ∧
      parseLength v = some r.story_length) ∧
    obj.lookup "suggestions" = some (.jarr (r.suggestions.map JVal.jstr)) := by
  unfold parseReview at h
  split at h
  · next sm vst vln items hsm hst hln hsug =>
    split at h
    · next st ln sugs hpst hpln hplist =>
      cases h
      refine ⟨hsm, ⟨vst, hst, hpst⟩, ⟨vln, hln, hpln⟩, ?_⟩
      rw [hsug, ← parseStrList_inv hplist]
    · cases h
  · cases h

/-! ## First-match helpers for the File Locator -/

theorem find?_congr_list {l : List (List Char)} {f g : List Char → Bool}
    (h : ∀ e ∈ l, f e = g e) : l.find? f = l.find? g := by
  induction l with
  | nil => rfl
  | cons e es ih =>
    by_cases he : f e = true
    · rw [List.find?_cons_of_pos es he,
        List.find?_cons_of_pos es (by rw [← h e (List.mem_cons_self e es)]; exact he)]
    · have hg : ¬g e = true := by
        rw [← h e (List.mem_cons_self e es)]
        exact he
      rw [List.find?_cons_of_neg es he, List.find?_cons_of_neg es hg,
        ih (fun x hx => h x (List.mem_cons_of_mem e hx))]

theorem find?_first (p : List Char → Bool) (f : List Char) (hf : p f = true) :
    ∀ (pre post : List (List Char)), (∀ g ∈ pre, p g = false) →
      (pre ++ f :: post).find? p = some f := by
  intro pre
  induction pre with
  | nil =>
    intro post _
    exact List.find?_cons_of_pos post hf
  | cons g gs ih =>
    intro post hpre
    rw [List.cons_append,
      List.find?_cons_of_neg _ (by rw [hpre g (List.mem_cons_self g gs)]; simp)]
    exact ih post (fun x hx => hpre x (List.mem_cons_of_mem g hx))

/-! ## The claims -/

/-- C1: on the transcript "Um, I think this is, like, kind of important,
you know?", `analyze_filler_words` reports exactly um, like, kind of and
you know, once each (and no other keys, in particular nothing for the
qualifier "I think"), and the derived total is the sum of these values. -/
theorem c1_filler_detector_on_sample :
    analyze_filler_words
        "Um, I think this is, like, kind of important, you know?".toList =
      [("um".toList, 1), ("like".toList, 1), ("you know".toList, 1),
       ("kind of".toList, 1)] ∧
    fillerTotal (analyze_filler_words
        "Um, I think this is, like, kind of important, you know?".toList) =
      1 + 1 + 1 + 1 := by
  decide

/-- C2: the filler-word detector never counts a filler expression inside a
longer word: replacing an occurrence of a vocabulary term `t` in any
transcript by a longer word `a ++ t ++ b` that contains it as a proper
substring (extended by word characters on either side) never increases the
count the report returns for any term `u`. -/
theorem c2_word_boundary_monotone (p a b s t u : List Char)
    (ht : t ∈ fillerVocab) (ha : ∀ c ∈ a, wc c = true)
    (hb : ∀ c ∈ b, wc c = true) (hab : a ≠ [] ∨ b ≠ []) :
    lookupCount (analyze_filler_words (p ++ a ++ t ++ b ++ s)) u ≤
      lookupCount (analyze_filler_words (p ++ t ++ s)) u :=
  analyze_block_le p a b s t ht ha hb hab u

/-- C2 witness: "like" extended to "unlike" in a concrete transcript. -/
theorem c2_word_boundary_monotone_witness :
    ("like".toList ∈ fillerVocab ∧
      (∀ c ∈ "un".toList, wc c = true) ∧
      (∀ c ∈ ([] : List Char), wc c = true) ∧
      ("un".toList ≠ [] ∨ ([] : List Char) ≠ [])) ∧
    lookupCount
        (analyze_filler_words
          ("I ".toList ++ "un".toList ++ "like".toList ++ ([] : List Char) ++
            " it".toList))
        "like".toList ≤
      lookupCount
        (analyze_filler_words ("I ".toList ++ "like".toList ++ " it".toList))
        "like".toList :=
  ⟨⟨by decide, by decide, by decide, by decide⟩,
    c2_word_boundary_monotone "I ".toList "un".toList ([] : List Char)
      " it".toList "like".toList "like".toList (by decide) (by decide)
      (by decide) (by decide)⟩

/-- C3: in the metrics the pipeline builds, every retained filler term has
a strictly positive count, and `total_filler_words` equals the sum of the
per-term counts. -/
theorem c3_report_invariant (transcript : List Char) :
    (∀ q ∈ (mkMetrics transcript).filler_words, 0 < q.2) ∧
    (mkMetrics transcript).total_filler_words =
      ((mkMetrics transcript).filler_words.map Prod.snd).sum := by
  constructor
  · intro q hq
    have h := (List.mem_filter.mp hq).2
    simpa using h
  · rfl

/-- C3 witness: the invariant at a concrete transcript and a concrete
retained entry. -/
theorem c3_report_invariant_witness :
    0 < (("um".toList, 1) : List Char × Nat).2 ∧
    (mkMetrics "Um, like.".toList).total_filler_words =
      ((mkMetrics "Um, like.".toList).filler_words.map Prod.snd).sum :=
  ⟨(c3_report_invariant "Um, like.".toList).1 ("um".toList, 1) (by decide),
    (c3_report_invariant "Um, like.".toList).2⟩

/-- C4: the File Locator returns the first file of the listing that ends,
case-insensitively, with one of the five supported extensions: it computes
`find?` of the spec's case-insensitive-suffix predicate; when no file
matches it returns the `none` signal; and a single supported file among
any number of unsupported ones is found. -/
theorem c4_file_locator (files pre post : List (List Char)) (f : List Char)
    (hpre : ∀ g ∈ pre, spec_isSupportedAudio g = false)
    (hf : spec_isSupportedAudio f = true) :
    find_audio_file files = files.find? spec_isSupportedAudio ∧
    ((∀ g ∈ files, spec_isSupportedAudio g = false) →
      find_audio_file files = none) ∧
    find_audio_file (pre ++ f :: post) = some f := by
  have hcongr : ∀ l : List (List Char),
      find_audio_file l = l.find? spec_isSupportedAudio :=
    fun l => find?_congr_list (fun e _ => isAudioName_eq_spec e)
  refine ⟨hcongr files, ?_, ?_⟩
  · intro hall
    rw [hcongr files]
    refine List.find?_eq_none.mpr (fun x hx => ?_)
    rw [hall x hx]
    simp
  · rw [hcongr]
    exact find?_first spec_isSupportedAudio f hf pre post hpre

/-- C4 witness: one supported file (with uppercase extension) among
unsupported ones, and a listing with no supported file. -/
theorem c4_file_locator_witness :
    ((∀ g ∈ ["notes.txt".toList, "cover.png".toList],
        spec_isSupportedAudio g = false) ∧
      spec_isSupportedAudio "B.WAV".toList = true) ∧
    find_audio_file
        (["notes.txt".toList, "cover.png".toList] ++
          "B.WAV".toList :: ["c.mp3".toList]) = some "B.WAV".toList ∧
    find_audio_file ["readme.md".toList] = none :=
  ⟨⟨by decide, by decide⟩,
    (c4_file_locator ["readme.md".toList]
      ["notes.txt".toList, "cover.png".toList] ["c.mp3".toList] "B.WAV".toList
      (by decide) (by decide)).2.2,
    (c4_file_locator ["readme.md".toList]
      ["notes.txt".toList, "cover.png".toList] ["c.mp3".toList] "B.WAV".toList
      (by decide) (by decide)).2.1 (by decide)⟩

/-- C5: the workspace allocator derives an 8-character identifier from the
36-character uuid string, builds the folder `data/<id>-<basename minus
extension>`, and the relocated audio file sits inside that folder under
its original name (extension included) with byte-identical content, the
source path being vacated. -/
theorem c5_workspace (uuidStr audio : List Char)
    (fs : List Char → Option (List Nat))
    (hu : uuidStr.length = 36) (hsep : '/' ∉ audio) :
    (analysisId uuidStr).length = 8 ∧
    folderPath uuidStr audio =
      "data/".toList ++ analysisId uuidStr ++ "-".toList ++
        splitextRoot audio ∧
    splitextRoot audio ++ splitextExt audio = audio ∧
    newAudioPath uuidStr audio =
      folderPath uuidStr audio ++ "/".toList ++ audio ∧
    moveFile fs audio (newAudioPath uuidStr audio) (newAudioPath uuidStr audio) =
      fs audio ∧
    moveFile fs audio (newAudioPath uuidStr audio) audio = none := by
  refine ⟨?_, ?_, splitextRoot_append_ext audio, ?_, ?_, ?_⟩
  · rw [analysisId, List.length_take, hu]
    decide
  · simp [folderPath, folderName, List.append_assoc]
  · simp [newAudioPath, List.append_assoc]
  · rw [moveFile, if_pos rfl]
  · have hne : audio ≠ newAudioPath uuidStr audio := by
      intro heq
      apply hsep
      rw [heq, newAudioPath]
      exact List.mem_append.mpr (Or.inr (List.mem_cons_self _ _))
    rw [moveFile, if_neg hne, if_pos rfl]

/-- C5 witness: a uuid string, `talk.mp3` and a one-file filesystem; also
checks concretely that the extension really is stripped. -/
theorem c5_workspace_witness :
    ("123e4567-e89b-12d3-a456-426614174000".toList.length = 36 ∧
      '/' ∉ "talk.mp3".toList ∧
      splitextRoot "talk.mp3".toList = "talk".toList) ∧
    (analysisId "123e4567-e89b-12d3-a456-426614174000".toList).length = 8 ∧
    moveFile
        (fun q => if q = "talk.mp3".toList then some [1, 2, 3] else none)
        "talk.mp3".toList
        (newAudioPath "123e4567-e89b-12d3-a456-426614174000".toList
          "talk.mp3".toList)
        (newAudioPath "123e4567-e89b-12d3-a456-426614174000".toList
          "talk.mp3".toList) =
      (fun q => if q = "talk.mp3".toList then some [1, 2, 3] else none)
        "talk.mp3".toList :=
  ⟨⟨by decide, by decide, by decide⟩,
    (c5_workspace "123e4567-e89b-12d3-a456-426614174000".toList
      "talk.mp3".toList
      (fun q => if q = "talk.mp3".toList then some [1, 2, 3] else none)
      (by decide) (by decide)).1,
    (c5_workspace "123e4567-e89b-12d3-a456-426614174000".toList
      "talk.mp3".toList
      (fun q => if q = "talk.mp3".toList then some [1, 2, 3] else none)
      (by decide) (by decide)).2.2.2.2.1⟩

/-- C6 counterexample: when only the final `analysis.json` save fails, the
run keeps a complete `transcript.txt` (besides the relocated audio) yet no
JSON record: the persisted artifact set is neither full nor empty, so
persistence is not all-or-none up to the relocated audio file. -/
theorem c6_all_or_none_counterexample :
    (runPipeline o6).outcome = RunOutcome.aborted ∧
    (runPipeline o6).audioMoved = true ∧
    (runPipeline o6).transcriptFile = FileState.complete ∧
    (runPipeline o6).jsonFile = FileState.absent ∧
    ¬(((runPipeline o6).transcriptFile = FileState.complete ∧
        (runPipeline o6).jsonFile = FileState.complete) ∨
      ((runPipeline o6).transcriptFile = FileState.absent ∧
        (runPipeline o6).jsonFile = FileState.absent)) := by
  decide

/-- C6 amended: artifacts persist monotonically in stage order: any JSON
file implies a complete transcript, any transcript file implies the
relocated audio, and a completed run has the full artifact set — so the
only deviations from all-or-none are the relocated audio file and
`transcript.txt`, which survives a failure of the final JSON save. -/
theorem c6_persistence_monotone (o : Oracles) :
    ((runPipeline o).jsonFile ≠ FileState.absent →
      (runPipeline o).transcriptFile = FileState.complete) ∧
    ((runPipeline o).transcriptFile ≠ FileState.absent →
      (runPipeline o).audioMoved = true) ∧
    ((runPipeline o).outcome = RunOutcome.completed →
      (runPipeline o).transcriptFile = FileState.complete ∧
      (runPipeline o).jsonFile = FileState.complete ∧
      (runPipeline o).audioMoved = true) := by
  unfold runPipeline
  repeat' split
  all_goals simp [writeResult]

/-- C6 witness: the monotonicity facts at a fully successful run. -/
theorem c6_persistence_monotone_witness :
    (runPipeline o6ok).transcriptFile = FileState.complete ∧
    ((runPipeline o6ok).transcriptFile = FileState.complete ∧
      (runPipeline o6ok).jsonFile = FileState.complete ∧
      (runPipeline o6ok).audioMoved = true) :=
  ⟨(c6_persistence_monotone o6ok).1 (by decide),
    (c6_persistence_monotone o6ok).2.2 (by decide)⟩

/-- C7: a completion response missing a required field, or whose
`story_strength` or `story_length` is not one of the declared literals, is
rejected with an error, and no run fed that response persists a JSON
artifact. -/
theorem c7_schema_rejection (obj : List (String × JVal))
    (hbad :
      obj.lookup "summary" = none ∨ obj.lookup "story_strength" = none ∨
      obj.lookup "story_length" = none ∨ obj.lookup "suggestions" = none ∨
      (∃ v, obj.lookup "story_strength" = some v ∧ parseStrength v = none) ∨
      (∃ v, obj.lookup "story_length" = some v ∧ parseLength v = none)) :
    parseReview obj = Except.error () ∧
    ∀ o : Oracles, o.completionResult = .ok obj →
      (runPipeline o).jsonFile = FileState.absent := by
  have herr : parseReview obj = Except.error () := by
    cases h : parseReview obj with
    | error e => cases e; rfl
    | ok r =>
      exfalso
      obtain ⟨hsum, ⟨v1, hv1, hp1⟩, ⟨v2, hv2, hp2⟩, hsug⟩ := parseReview_ok_inv h
      rcases hbad with hb | hb | hb | hb | ⟨v, hv, hpn⟩ | ⟨v, hv, hpn⟩
      · rw [hb] at hsum
        cases hsum
      · rw [hb] at hv1
        cases hv1
      · rw [hb] at hv2
        cases hv2
      · rw [hb] at hsug
        cases hsug
      · rw [hv] at hv1
        injection hv1 with h2
        subst h2
        rw [hpn] at hp1
        cases hp1
      · rw [hv] at hv2
        injection hv2 with h2
        subst h2
        rw [hpn] at hp2
        cases hp2
  refine ⟨herr, ?_⟩
  intro o ho
  unfold runPipeline
  split
  · rfl
  · split
    · rfl
    · split
      · rfl
      · split
        · rfl
        · split
          · rfl
          · next obj' heq =>
            rw [ho] at heq
            injection heq with h2
            subst h2
            split
            · rfl
            · next r hr =>
              rw [herr] at hr
              cases hr

/-- C7 witness: a response missing `summary` is rejected and the run that
received it persists no JSON artifact. -/
theorem c7_schema_rejection_witness :
    parseReview noSummaryObj = Except.error () ∧
    (runPipeline o7).jsonFile = FileState.absent :=
  ⟨(c7_schema_rejection noSummaryObj (Or.inl rfl)).1,
    (c7_schema_rejection noSummaryObj (Or.inl rfl)).2 o7 rfl⟩

/-- C8 counterexample: a response whose suggestions list is empty is
accepted as a valid `ContentReview` (with empty suggestions), and the run
that received it completes — so accepted records need not have a non-empty
suggestions list. -/
theorem c8_empty_suggestions_counterexample :
    parseReview emptySuggObj =
      Except.ok ⟨"fine".toList, .good, .justRight, []⟩ ∧
    (runPipeline o8).outcome = RunOutcome.completed ∧
    (runPipeline o8).jsonFile = FileState.complete := by
  refine ⟨rfl, ?_, ?_⟩ <;> decide

/-- C8 amended: every `ContentReview` the pipeline accepts carries as
suggestions exactly the list of strings supplied in the response's
`suggestions` field — a list that may be empty. -/
theorem c8_suggestions_exact (obj : List (String × JVal)) (r : ContentReview)
    (h : parseReview obj = .ok r) :
    obj.lookup "suggestions" = some (.jarr (r.suggestions.map JVal.jstr)) :=
  (parseReview_ok_inv h).2.2.2

/-- C8 witness: the amended fact at the concrete empty-suggestions
response. -/
theorem c8_suggestions_exact_witness :
    emptySuggObj.lookup "suggestions" =
      some (JVal.jarr (([] : List (List Char)).map JVal.jstr)) :=
  c8_suggestions_exact emptySuggObj ⟨"fine".toList, .good, .justRight, []⟩ rfl

/-- C9 counterexample: with no supported audio file and no pre-existing
`data/` root, the entry point still creates `data/`
(`os.makedirs('data', exist_ok=True)` runs before the locator), a
filesystem mutation that is not a directory existence check. -/
theorem c9_no_input_counterexample :
    find_audio_file o9.files = none ∧
    mutatedBeyondChecks false (runMain false o9) := by
  refine ⟨by decide, Or.inl (by decide)⟩

/-- C9 amended: on a directory with no supported audio file the locator
reports `none` and the run ends normally having ensured only that the
fixed `data/` root exists: no result folder is created, no file is moved,
and no artifact is written. -/
theorem c9_no_input_frame (o : Oracles) (dataDirBefore : Bool)
    (hnone : find_audio_file o.files = none) :
    runMain dataDirBefore o =
      (true, ⟨RunOutcome.noInput, false, false, FileState.absent,
        FileState.absent⟩) := by
  unfold runMain runPipeline
  rw [hnone]

/-- C9 witness: the frame fact at the concrete no-audio listing. -/
theorem c9_no_input_frame_witness :
    runMain false o9 =
      (true, ⟨RunOutcome.noInput, false, false, FileState.absent,
        FileState.absent⟩) :=
  c9_no_input_frame o9 false (by decide)

/-- C10: the persisted `word_count` is the number of maximal
whitespace-separated tokens of the transcript (the length of the
transcript split on whitespace). -/
theorem c10_word_count (transcript : List Char) :
    (mkMetrics transcript).word_count = tokenStarts transcript :=
  pySplit_length transcript

end Storitaimu
